import Mathlib

/-!
Verification of the generative-output ingestion layer of the CogniVibe study
companion (`src/services/geminiService.ts`): the JSON cleaning pipeline
`cleanAndParseJSON`, the classified retry scheduler `withRetry`, and the
"soft" call sites `defineWord`, `generateHint` and `getVivaResponse`.

Strings are modelled as `List Char` internally (JavaScript string indices are
UTF-16 code units; every input considered here is made of basic-plane
characters, for which code-unit indices and character indices coincide).
Recursive scanners take an explicit fuel argument so that all definitions are
structurally recursive and evaluable by `decide`/`rfl`; the wrappers supply
fuel that is always sufficient since every step consumes at least one
character.
-/

namespace CogniVibe

/-- Characters matched by JavaScript regex `\s` (WhiteSpace ∪ LineTerminator),
which is also the character set removed by `String.prototype.trim`. -/
def isJsWs (c : Char) : Bool :=
  c = ' ' || c = '\t' || c = '\n' || c = '\r' || c = '\x0b' || c = '\x0c' ||
  c = '\u00A0' || c = '\uFEFF' || c = '\u1680' ||
  (decide ('\u2000' ≤ c) && decide (c ≤ '\u200A')) ||
  c = '\u2028' || c = '\u2029' || c = '\u202F' || c = '\u205F' || c = '\u3000'

/-- Length of the maximal whitespace run at the head of the list
(the text a greedy `\s*` consumes). -/
def wsRunLen : List Char → Nat
  | [] => 0
  | c :: cs => if isJsWs c then wsRunLen cs + 1 else 0

/-- Length of the maximal digit run at the head of the list
(the text a greedy `\d+` consumes when it matches). -/
def digitRunLen : List Char → Nat
  | [] => 0
  | c :: cs => if c.isDigit then digitRunLen cs + 1 else 0

/-- The seven characters of the literal alternative `` ```json `` of the
fence-stripping regex. -/
def fenceJsonChars : List Char := ['\x60', '\x60', '\x60', 'j', 's', 'o', 'n']

/-- The three characters of a bare code fence `` ``` ``. -/
def ticksChars : List Char := ['\x60', '\x60', '\x60']

/-- One left-to-right pass of
`text.replace(/```json\s*|\s*```/g, "")` (geminiService.ts line 11).
At each position the regex engine first tries the alternative
`` ```json\s* `` and then `` \s*``` ``; a greedy `\s*` followed by `` ``` ``
can only match the full whitespace run (the run's characters are not
backticks), so the second alternative matches exactly when the maximal
whitespace run at this position is immediately followed by `` ``` ``.
Scanning resumes after the matched text. -/
def fenceScan : Nat → List Char → List Char
  | 0, l => l
  | _ + 1, [] => []
  | fuel + 1, c :: cs =>
    if fenceJsonChars.isPrefixOf (c :: cs) then
      fenceScan fuel (((c :: cs).drop 7).drop (wsRunLen ((c :: cs).drop 7)))
    else if ticksChars.isPrefixOf ((c :: cs).drop (wsRunLen (c :: cs))) then
      fenceScan fuel (((c :: cs).drop (wsRunLen (c :: cs))).drop 3)
    else
      c :: fenceScan fuel cs

/-- `text.replace(/```json\s*|\s*```/g, "")` with always-sufficient fuel. -/
def fenceStrip (l : List Char) : List Char :=
  fenceScan (l.length + 1) l

/-- Leading-whitespace removal of `String.prototype.trim`. -/
def trimLeftChars (l : List Char) : List Char :=
  l.dropWhile isJsWs

/-- `String.prototype.trim` on a character list: drop JS whitespace from both
ends. -/
def jsTrimChars (l : List Char) : List Char :=
  ((l.dropWhile isJsWs).reverse.dropWhile isJsWs).reverse

/-- Index of the first occurrence of a character, if any. -/
def charFirstIdx : List Char → Char → Option Nat
  | [], _ => none
  | c :: cs, t => if c = t then some 0 else (charFirstIdx cs t).map (· + 1)

/-- `String.prototype.indexOf` for a single character: the index of its first
occurrence, or `-1`. -/
def jsIndexOf (l : List Char) (c : Char) : Int :=
  match charFirstIdx l c with
  | some i => (i : Int)
  | none => -1

/-- `String.prototype.lastIndexOf` for a single character: the index of its
last occurrence, or `-1` (computed as the first occurrence from the right). -/
def jsLastIndexOf (l : List Char) (c : Char) : Int :=
  match charFirstIdx l.reverse c with
  | some i => ((l.length - 1 - i : Nat) : Int)
  | none => -1

/-- The envelope-locating step of `cleanAndParseJSON`
(geminiService.ts lines 13–35): compute the earliest `{`/`[` and the latest
`}`/`]`, and when both exist with the closer strictly after the opener, keep
`clean.substring(start, end + 1)`; otherwise keep the text unchanged. -/
def envelopeSlice (clean : List Char) : List Char :=
  let firstBrace := jsIndexOf clean '{'
  let firstBracket := jsIndexOf clean '['
  let lastBrace := jsLastIndexOf clean '}'
  let lastBracket := jsLastIndexOf clean ']'
  let start : Int :=
    if firstBrace ≠ -1 ∧ (firstBracket = -1 ∨ firstBrace < firstBracket) then
      firstBrace
    else if firstBracket ≠ -1 then firstBracket
    else -1
  let stop : Int :=
    if lastBrace ≠ -1 ∧ (lastBracket = -1 ∨ lastBrace > lastBracket) then
      lastBrace
    else if lastBracket ≠ -1 then lastBracket
    else -1
  if start ≠ -1 ∧ stop ≠ -1 ∧ stop > start then
    (clean.drop start.toNat).take (stop.toNat + 1 - start.toNat)
  else clean

/-- Attempt to match, right after an opening double quote, the remainder of
the pattern `"\d+":\s*{`: one or more digits, a closing quote, a colon,
optional whitespace, an opening brace. Returns the rest of the input after
the matched `{` when the pattern matches. -/
def matchIdxKey (cs : List Char) : Option (List Char) :=
  let d := digitRunLen cs
  if d = 0 then none
  else
    match cs.drop d with
    | '"' :: ':' :: rest =>
      match rest.drop (wsRunLen rest) with
      | '{' :: rest2 => some rest2
      | _ => none
    | _ => none

/-- One left-to-right pass of `clean.replace(/"\d+":\s*{/g, '{')`
(geminiService.ts line 37): each occurrence of a quoted integer key, a colon,
optional whitespace and an opening brace is replaced by the brace alone;
scanning resumes after the matched text. -/
def idxKeyScan : Nat → List Char → List Char
  | 0, l => l
  | _ + 1, [] => []
  | fuel + 1, c :: cs =>
    if c = '"' then
      match matchIdxKey cs with
      | some rest => '{' :: idxKeyScan fuel rest
      | none => c :: idxKeyScan fuel cs
    else c :: idxKeyScan fuel cs

/-- `clean.replace(/"\d+":\s*{/g, '{')` with always-sufficient fuel. -/
def idxKeyStrip (l : List Char) : List Char :=
  idxKeyScan (l.length + 1) l

/-- One left-to-right pass of `clean.replace(/,\s*([}\])/g, '$1')`
(geminiService.ts line 43): a comma followed by optional whitespace and a
closing `}` or `]` is replaced by that closer; scanning resumes after the
matched text. -/
def commaScan : Nat → List Char → List Char
  | 0, l => l
  | _ + 1, [] => []
  | fuel + 1, c :: cs =>
    if c = ',' then
      match cs.drop (wsRunLen cs) with
      | b :: rest =>
        if b = '}' ∨ b = ']' then b :: commaScan fuel rest
        else c :: commaScan fuel cs
      | [] => c :: commaScan fuel cs
    else c :: commaScan fuel cs

/-- `clean.replace(/,\s*([}\])/g, '$1')` with always-sufficient fuel. -/
def commaStrip (l : List Char) : List Char :=
  commaScan (l.length + 1) l

/-!
A model of the JavaScript `JSON.parse` builtin, to which `cleanAndParseJSON`
delegates structural parsing. Numeric literals are kept as their lexeme (the
claims below never compare numbers produced from distinct lexemes); string
escapes `\uXXXX` denoting unpaired surrogate code units are rejected because
a Lean `Char` holds only scalar values (no input considered here uses them).
-/

/-- A parsed JSON value as produced by `JSON.parse`: object fields keep
insertion order, with a duplicated key keeping its first position and its
last value, as JavaScript property assignment does. -/
inductive Json where
  | null
  | bool (b : Bool)
  | num (lexeme : String)
  | str (s : String)
  | arr (elems : List Json)
  | obj (fields : List (String × Json))

/-- Whitespace accepted between JSON tokens by `JSON.parse`
(space, tab, line feed, carriage return only). -/
def isJsonWs (c : Char) : Bool :=
  c = ' ' || c = '\t' || c = '\n' || c = '\r'

/-- Skip inter-token JSON whitespace. -/
def skipJsonWs (l : List Char) : List Char :=
  l.dropWhile isJsonWs

/-- Value of a hexadecimal digit. -/
def hexVal (c : Char) : Option Nat :=
  if '0' ≤ c ∧ c ≤ '9' then some (c.toNat - '0'.toNat)
  else if 'a' ≤ c ∧ c ≤ 'f' then some (c.toNat - 'a'.toNat + 10)
  else if 'A' ≤ c ∧ c ≤ 'F' then some (c.toNat - 'A'.toNat + 10)
  else none

/-- Single-character JSON string escapes. -/
def escChar : Char → Option Char
  | '"' => some '"'
  | '\\' => some '\\'
  | '/' => some '/'
  | 'b' => some '\x08'
  | 'f' => some '\x0c'
  | 'n' => some '\n'
  | 'r' => some '\r'
  | 't' => some '\t'
  | _ => none

/-- Parse the body of a JSON string, starting right after the opening quote;
returns the decoded content and the rest of the input after the closing
quote. Raw control characters below U+0020 are rejected, as `JSON.parse`
does. -/
def parseStringBody : Nat → List Char → Option (List Char × List Char)
  | 0, _ => none
  | _ + 1, [] => none
  | fuel + 1, c :: cs =>
    if c = '"' then some ([], cs)
    else if c = '\\' then
      match cs with
      | [] => none
      | e :: cs2 =>
        if e = 'u' then
          match cs2 with
          | h1 :: h2 :: h3 :: h4 :: cs3 =>
            match hexVal h1, hexVal h2, hexVal h3, hexVal h4 with
            | some a, some b, some c3, some d =>
              let n := ((a * 16 + b) * 16 + c3) * 16 + d
              if n < 0xd800 ∨ (0xdfff < n ∧ n < 0x110000) then
                match parseStringBody fuel cs3 with
                | some (content, rest) => some (Char.ofNat n :: content, rest)
                | none => none
              else none
            | _, _, _, _ => none
          | _ => none
        else
          match escChar e with
          | some ec =>
            match parseStringBody fuel cs2 with
            | some (content, rest) => some (ec :: content, rest)
            | none => none
          | none => none
    else if c.toNat < 0x20 then none
    else
      match parseStringBody fuel cs with
      | some (content, rest) => some (c :: content, rest)
      | none => none

/-- Optional fraction and exponent parts of a JSON number; returns the
consumed lexeme characters and the rest. A malformed part (for example a dot
with no following digit) is left unconsumed, so that overall parsing fails at
the leftover text exactly where `JSON.parse` reports a syntax error. -/
def parseFracExp (l : List Char) : List Char × List Char :=
  let (frac, l1) :=
    match l with
    | '.' :: d :: r =>
      if d.isDigit then
        ('.' :: (d :: r).takeWhile Char.isDigit, (d :: r).dropWhile Char.isDigit)
      else ([], l)
    | _ => ([], l)
  match l1 with
  | e :: r1 =>
    if e = 'e' ∨ e = 'E' then
      let (sgn, r2) :=
        match r1 with
        | s :: r2 => if s = '+' ∨ s = '-' then ([s], r2) else ([], r1)
        | [] => ([], r1)
      match r2 with
      | d :: _ =>
        if d.isDigit then
          (frac ++ e :: sgn ++ r2.takeWhile Char.isDigit, r2.dropWhile Char.isDigit)
        else (frac, l1)
      | [] => (frac, l1)
    else (frac, l1)
  | [] => (frac, l1)

/-- Parse a JSON number lexeme: optional minus, an integer part that is `0`
or starts with a nonzero digit, then optional fraction and exponent. -/
def parseNumber (l : List Char) : Option (List Char × List Char) :=
  let (neg, l1) :=
    match l with
    | '-' :: r => (['-'], r)
    | _ => (([] : List Char), l)
  match l1 with
  | c :: r =>
    if c = '0' then
      let (fe, rest) := parseFracExp r
      some (neg ++ '0' :: fe, rest)
    else if c.isDigit then
      let digs := (c :: r).takeWhile Char.isDigit
      let (fe, rest) := parseFracExp ((c :: r).dropWhile Char.isDigit)
      some (neg ++ digs ++ fe, rest)
    else none
  | [] => none

/-- Record a parsed object member, as JavaScript property assignment does:
a repeated key keeps its original position and receives the new value. -/
def insertField (fs : List (String × Json)) (k : String) (v : Json) :
    List (String × Json) :=
  if fs.any (fun p => p.1 = k) then
    fs.map (fun p => if p.1 = k then (k, v) else p)
  else fs ++ [(k, v)]

/-- Parsing modes of the recursive-descent `JSON.parse` model: a value, the
inside of an array (just after `[` or collecting elements), or the inside of
an object. -/
inductive PMode where
  | val
  | arrStart
  | arrLoop (acc : List Json)
  | objStart
  | objLoop (acc : List (String × Json))

/-- The recursive-descent core of the `JSON.parse` model. Returns the parsed
value and the unconsumed rest of the input. -/
def parseRun : Nat → PMode → List Char → Option (Json × List Char)
  | 0, _, _ => none
  | fuel + 1, .val, l =>
    match skipJsonWs l with
    | [] => none
    | c :: r =>
      if c = '"' then
        match parseStringBody (r.length + 1) r with
        | some (content, rest) => some (.str (String.mk content), rest)
        | none => none
      else if c = '{' then parseRun fuel .objStart r
      else if c = '[' then parseRun fuel .arrStart r
      else if c = 't' then
        match r with
        | 'r' :: 'u' :: 'e' :: rest => some (.bool true, rest)
        | _ => none
      else if c = 'f' then
        match r with
        | 'a' :: 'l' :: 's' :: 'e' :: rest => some (.bool false, rest)
        | _ => none
      else if c = 'n' then
        match r with
        | 'u' :: 'l' :: 'l' :: rest => some (.null, rest)
        | _ => none
      else if c = '-' ∨ c.isDigit then
        match parseNumber (c :: r) with
        | some (lex, rest) => some (.num (String.mk lex), rest)
        | none => none
      else none
  | fuel + 1, .arrStart, l =>
    match skipJsonWs l with
    | ']' :: rest => some (.arr [], rest)
    | _ =>
      match parseRun fuel .val l with
      | some (v, r) => parseRun fuel (.arrLoop [v]) r
      | none => none
  | fuel + 1, .arrLoop acc, l =>
    match skipJsonWs l with
    | ',' :: r =>
      match parseRun fuel .val r with
      | some (v, r2) => parseRun fuel (.arrLoop (acc ++ [v])) r2
      | none => none
    | ']' :: rest => some (.arr acc, rest)
    | _ => none
  | fuel + 1, .objStart, l =>
    match skipJsonWs l with
    | '}' :: rest => some (.obj [], rest)
    | '"' :: r =>
      match parseStringBody (r.length + 1) r with
      | some (k, r2) =>
        match skipJsonWs r2 with
        | ':' :: r3 =>
          match parseRun fuel .val r3 with
          | some (v, r4) => parseRun fuel (.objLoop (insertField [] (String.mk k) v)) r4
          | none => none
        | _ => none
      | none => none
    | _ => none
  | fuel + 1, .objLoop acc, l =>
    match skipJsonWs l with
    | '}' :: rest => some (.obj acc, rest)
    | ',' :: r =>
      match skipJsonWs r with
      | '"' :: r2 =>
        match parseStringBody (r2.length + 1) r2 with
        | some (k, r3) =>
          match skipJsonWs r3 with
          | ':' :: r4 =>
            match parseRun fuel .val r4 with
            | some (v, r5) => parseRun fuel (.objLoop (insertField acc (String.mk k) v)) r5
            | none => none
          | _ => none
        | none => none
      | _ => none
    | _ => none

/-- `JSON.parse` on a character list: parse one value, then require only
whitespace to remain. `none` models a thrown `SyntaxError`. -/
def jsonParseChars (l : List Char) : Option Json :=
  match parseRun (2 * l.length + 8) .val l with
  | some (v, rest) => if skipJsonWs rest = [] then some v else none
  | none => none

/-- `JSON.parse` on a string. -/
def jsonParse (s : String) : Option Json :=
  jsonParseChars s.toList

/-- The observable failures of `cleanAndParseJSON` (geminiService.ts lines
9 and 47–50): the guard `if (!text) throw new Error("Empty response text")`,
and the second-failure path that reports the original raw text and the final
cleaned text (via its two `console.error` diagnostics) and throws. -/
inductive ParseFailure where
  | emptyResponse
  | malformedJSON (raw : String) (cleaned : String)
deriving DecidableEq

/-- `cleanAndParseJSON` (geminiService.ts lines 8–53): reject empty input;
strip code fences and trim; slice the outer envelope; strip quoted-integer
index keys; parse; on failure remove trailing commas, trim and parse again;
on a second failure fail loudly with the raw and cleaned texts. -/
def cleanAndParseJSON (text : String) : Except ParseFailure Json :=
  if text = "" then .error .emptyResponse
  else
    let clean0 := envelopeSlice (jsTrimChars (fenceStrip text.toList))
    let clean := idxKeyStrip clean0
    match jsonParseChars clean with
    | some v => .ok v
    | none =>
      let fixedJson := jsTrimChars (commaStrip clean)
      match jsonParseChars fixedJson with
      | some v => .ok v
      | none => .error (.malformedJSON text (String.mk clean))

/-- The fence-stripping stage on strings:
`text.replace(/```json\s*|\s*```/g, "")`. -/
def stripFences (s : String) : String :=
  String.mk (fenceStrip s.toList)

/-- The full normalization stage (spec §"Text Normalizer"): fence stripping,
trimming, and envelope slicing, before any repair transform. -/
def normalizedText (s : String) : String :=
  String.mk (envelopeSlice (jsTrimChars (fenceStrip s.toList)))

/-- The index-key-stripping repair transform (spec name `stripIndexKeys`):
`clean.replace(/"\d+":\s*{/g, '{')`. -/
def stripIndexKeys (s : String) : String :=
  String.mk (idxKeyStrip s.toList)

/-- The trailing-comma-removal repair transform (spec name
`stripTrailingCommas`): `clean.replace(/,\s*([}\])/g, '$1')`. -/
def stripTrailingCommas (s : String) : String :=
  String.mk (commaStrip s.toList)

/-- `String.prototype.trim` on strings. -/
def jsTrim (s : String) : String :=
  String.mk (jsTrimChars s.toList)

/-- The text handed to the first structural parse attempt of
`cleanAndParseJSON`. -/
def firstAttemptText (s : String) : String :=
  stripIndexKeys (normalizedText s)

/-- The text handed to the second structural parse attempt of
`cleanAndParseJSON`. -/
def secondAttemptText (s : String) : String :=
  jsTrim (stripTrailingCommas (firstAttemptText s))

/-!
The retry scheduler `withRetry` (geminiService.ts lines 58–76). An operation
is modelled by the outcome of each of its successive invocations
(`fn : Nat → Except String α`, attempt index ↦ result); the trace records the
final outcome, the number of invocations, and the `setTimeout` delays taken,
in order. Delays are naturals: every delay reached from the even default
`initialDelayMs = 2000` by doubling is even, so JavaScript's `delay / 2`
equals natural division here.
-/

/-- Outcome of running an operation through `withRetry`: final result,
number of invocations of the operation, and the waits taken, in order. -/
structure RetryTrace (α : Type) where
  result : Except String α
  calls : Nat
  waits : List Nat

/-- `String.prototype.includes` on character lists: some position of `l`
begins with `pat` (the empty pattern is contained everywhere). -/
def hasSubstring : List Char → List Char → Bool
  | [], pat => pat.isEmpty
  | c :: cs, pat => pat.isPrefixOf (c :: cs) || hasSubstring cs pat

/-- `message.toLowerCase()` as a character list (character-wise lower-casing;
the indicator substrings searched for are ASCII). -/
def lowerChars (s : String) : List Char :=
  s.toList.map Char.toLower

/-- The retryability test of `withRetry` (lines 63–67): the lower-cased
message contains `429`, `resource_exhausted`, `500` or `internal error`. -/
def isRetryableMsg (msg : String) : Bool :=
  hasSubstring (lowerChars msg) ("429").toList ||
  hasSubstring (lowerChars msg) ("resource_exhausted").toList ||
  hasSubstring (lowerChars msg) ("500").toList ||
  hasSubstring (lowerChars msg) ("internal error").toList

/-- The wait-time rule of `withRetry` (line 70):
`errorMsg.includes('429') ? delay : delay / 2`. -/
def retryWaitTime (msg : String) (delay : Nat) : Nat :=
  if hasSubstring (lowerChars msg) ("429").toList then delay else delay / 2

/-- `withRetry(fn, retries, delay)` (lines 58–76): invoke the operation; on a
retryable failure with retries left, wait (full delay if the message contains
`429`, half otherwise), then recurse with `retries - 1` and `delay * 2`;
otherwise rethrow. Defaults: `retries = 3`, `delay = 2000`. -/
def withRetry {α : Type} (fn : Nat → Except String α) : Nat → Nat → RetryTrace α
  | 0, _ =>
    match fn 0 with
    | .ok v => ⟨.ok v, 1, []⟩
    | .error msg => ⟨.error msg, 1, []⟩
  | r + 1, delay =>
    match fn 0 with
    | .ok v => ⟨.ok v, 1, []⟩
    | .error msg =>
      if isRetryableMsg msg then
        let rest := withRetry (fun i => fn (i + 1)) r (delay * 2)
        ⟨rest.result, rest.calls + 1, retryWaitTime msg delay :: rest.waits⟩
      else ⟨.error msg, 1, []⟩

/-!
The "soft" call sites (geminiService.ts): `defineWord` (lines 265–279),
`generateHint` (lines 281–301) and `getVivaResponse` (lines 337–357). Each
runs its request through `withRetry` with the default policy, parses the
reply text (substituting `"{}"` for an empty reply, as `response.text || "{}"`
does), projects one expected key, and returns a fixed fallback string when
anything fails or the projected value is absent or falsy. The endpoint is
modelled by the outcome of each successive invocation; the returned
JavaScript value is a `Json` (the code returns the projected value itself
when it is truthy, whatever its type).
-/

/-- JavaScript property access `parsed.key` on a parsed JSON value: a field
of an object, `undefined` (`none`) otherwise. -/
def getField (j : Json) (key : String) : Option Json :=
  match j with
  | .obj fields => (fields.find? (fun p => p.1 = key)).map (fun p => p.2)
  | _ => none

/-- Whether a JSON numeric lexeme denotes zero: its mantissa (the part before
any exponent) has no nonzero digit. -/
def numLexemeIsZero (lex : String) : Bool :=
  (lex.toList.takeWhile (fun c => !(c = 'e' || c = 'E'))).all
    (fun c => !c.isDigit || c = '0')

/-- JavaScript truthiness of a value produced by `JSON.parse`: `null`,
`false`, `0` and `""` are falsy; every object and array is truthy. -/
def jsTruthy : Json → Bool
  | .null => false
  | .bool b => b
  | .num lex => !numLexemeIsZero lex
  | .str s => !(s = "")
  | .arr _ => true
  | .obj _ => true

/-- Shared shape of the three soft call sites: run the endpoint through
`withRetry` with the default policy, parse `response.text || "{}"`, project
`key`, and fall back to a fixed string when the call or the parse throws
(`catchFallback`) or when the projected value is absent or falsy
(`falsyFallback`). -/
def softCallSite (endpoint : Nat → Except String String) (key : String)
    (falsyFallback catchFallback : String) : Json :=
  match (withRetry endpoint 3 2000).result with
  | .error _ => .str catchFallback
  | .ok text =>
    match cleanAndParseJSON (if text = "" then "\x7b\x7d" else text) with
    | .error _ => .str catchFallback
    | .ok parsed =>
      match getField parsed key with
      | some v => if jsTruthy v then v else .str falsyFallback
      | none => .str falsyFallback

/-- `defineWord` (lines 265–279): returns `parsed.definition` when truthy and
`"Definition unavailable."` on any failure or falsy projection. -/
def defineWord (endpoint : Nat → Except String String) : Json :=
  softCallSite endpoint "definition" "Definition unavailable."
    "Definition unavailable."

/-- `generateHint` (lines 281–301): returns `parsed.hint` when truthy and
`"Try reviewing the Story Mode for clues!"` otherwise. -/
def generateHint (endpoint : Nat → Except String String) : Json :=
  softCallSite endpoint "hint" "Try reviewing the Story Mode for clues!"
    "Try reviewing the Story Mode for clues!"

/-- `getVivaResponse` (lines 337–357): returns `parsed.response` when truthy,
`"Sorry, I couldn\x27t get a response."` when the projection is absent or
falsy, and `"Oops! An error occurred. Check your network or quota."` when the
call or the parse throws. -/
def getVivaResponse (endpoint : Nat → Except String String) : Json :=
  softCallSite endpoint "response" "Sorry, I couldn\x27t get a response."
    "Oops! An error occurred. Check your network or quota."

/-- The delays a run of `withRetry` takes when every attempt fails with the
same message `msg`: one wait per remaining retry, with the configured delay
doubling each time. -/
def retryWaits (msg : String) : Nat → Nat → List Nat
  | 0, _ => []
  | r + 1, delay => retryWaitTime msg delay :: retryWaits msg r (delay * 2)

/-!
Theorems. Helper lemmas about `withRetry` come first, then one theorem per
claim (with a witness where the theorem carries hypotheses).
-/

/-- A run of `withRetry` on an operation whose every invocation fails with
the same retryable message exhausts all retries: the error is rethrown, the
operation is invoked `retries + 1` times, and the recorded waits follow the
doubling schedule. -/
theorem withRetry_const_error {α : Type} (msg : String)
    (h : isRetryableMsg msg = true) :
    ∀ r delay, withRetry (fun _ => (Except.error msg : Except String α)) r delay =
      ⟨Except.error msg, r + 1, retryWaits msg r delay⟩ := by
  intro r
  induction r with
  | zero => intro delay ; simp [withRetry, retryWaits]
  | succ r ih => intro delay ; simp [withRetry, retryWaits, h, ih]

/-- A run of `withRetry` on an operation that fails on every invocation with
retryable messages is invoked `retries + 1` times and ends in an error. -/
theorem withRetry_all_retryable_failures {α : Type} :
    ∀ (r : Nat) (fn : Nat → Except String α), (∀ i, ∃ m, fn i = Except.error m ∧ isRetryableMsg m = true) →
      ∀ delay, (withRetry fn r delay).calls = r + 1 ∧
        ∃ m, (withRetry fn r delay).result = Except.error m := by
  intro r
  induction r with
  | zero =>
    intro fn h delay
    obtain ⟨m, hm, _⟩ := h 0
    simp [withRetry, hm]
  | succ r ih =>
    intro fn h delay
    obtain ⟨m, hm, hret⟩ := h 0
    have ih2 := ih (fun i => fn (i + 1)) (fun i => h (i + 1)) (delay * 2)
    simp only [withRetry, hm, hret, if_true]
    constructor
    · simpa using ih2.1
    · simpa using ih2.2

/-- Claim C3 counterexample: a failure whose message is
`resource_exhausted` is classified retryable and, per the spec's error
classifier, `RateLimited`; yet under the default policy the scheduler waits
1000, 2000, 4000 ms — half of the current delay each time — not the full
2000, 4000, 8000 ms the claim requires for every `RateLimited` failure. -/
theorem c3_counterexample :
    isRetryableMsg "resource_exhausted" = true ∧
    (withRetry (fun _ => (Except.error "resource_exhausted" : Except String Nat))
        3 2000).waits = [1000, 2000, 4000] ∧
    (withRetry (fun _ => (Except.error "resource_exhausted" : Except String Nat))
        3 2000).waits ≠ [2000, 4000, 8000] := by
  refine ⟨rfl, rfl, ?_⟩
  decide

/-- Claim C3 (amended): the scheduler waits the full current delay only when
the failure message contains `429`; every other retryable failure (including
`resource_exhausted`, which the spec classifies as `RateLimited`, and the
`ServerInternal` messages) waits half of the current delay. Under the default
policy a constant-failure sequence therefore waits 2000, 4000, 8000 ms when
the message contains `429` and 1000, 2000, 4000 ms otherwise. -/
theorem c3_amended (msg : String) (h : isRetryableMsg msg = true) :
    (withRetry (fun _ => (Except.error msg : Except String Nat)) 3 2000).waits =
      if hasSubstring (lowerChars msg) ("429").toList then [2000, 4000, 8000]
      else [1000, 2000, 4000] := by
  rw [withRetry_const_error msg h 3 2000]
  have e : retryWaits msg 3 2000 =
      [retryWaitTime msg 2000, retryWaitTime msg 4000, retryWaitTime msg 8000] := rfl
  rw [e]
  unfold retryWaitTime
  by_cases hc : hasSubstring (lowerChars msg) ("429").toList
  · rw [if_pos hc, if_pos hc, if_pos hc, if_pos hc]
  · rw [if_neg hc, if_neg hc, if_neg hc, if_neg hc]

/-- Witness for C3 (amended) at the concrete message `429`. -/
theorem c3_amended_witness :
    (withRetry (fun _ => (Except.error "429" : Except String Nat)) 3 2000).waits =
      [2000, 4000, 8000] := by
  have h := c3_amended "429" (by decide)
  simpa using h

/-- Claim C4: an operation that fails on every invocation with a retryable
error is, under the default policy (`maxRetries = 3`, `initialDelayMs =
2000`), invoked exactly 4 times, after which the caller observes the
failure. -/
theorem c4_retry_exhaustion {α : Type} (fn : Nat → Except String α)
    (h : ∀ i, ∃ m, fn i = Except.error m ∧ isRetryableMsg m = true) :
    (withRetry fn 3 2000).calls = 4 ∧
    ∃ m, (withRetry fn 3 2000).result = Except.error m :=
  withRetry_all_retryable_failures 3 fn h 2000

/-- Witness for C4 at the operation that always fails with message `429`. -/
theorem c4_retry_exhaustion_witness :
    (withRetry (fun _ => (Except.error "429" : Except String Nat)) 3 2000).calls = 4 ∧
    ∃ m, (withRetry (fun _ => (Except.error "429" : Except String Nat)) 3 2000).result =
      Except.error m :=
  c4_retry_exhaustion _ (fun _ => ⟨"429", rfl, by decide⟩)

/-- Claim C6: a failure whose message lacks every retryable indicator is
rethrown unchanged at once: one invocation, no waits, whatever the remaining
attempt budget and current delay are. -/
theorem c6_nonretryable_rethrow {α : Type} (fn : Nat → Except String α)
    (msg : String) (retries delay : Nat)
    (hmsg : isRetryableMsg msg = false) (hfn : fn 0 = Except.error msg) :
    withRetry fn retries delay = ⟨Except.error msg, 1, []⟩ := by
  cases retries with
  | zero => simp [withRetry, hfn]
  | succ r => simp [withRetry, hfn, hmsg]

/-- Witness for C6 at the concrete message `401`. -/
theorem c6_nonretryable_rethrow_witness :
    withRetry (fun _ => (Except.error "401" : Except String Nat)) 3 2000 =
      ⟨Except.error "401", 1, []⟩ :=
  c6_nonretryable_rethrow _ "401" 3 2000 (by decide) rfl

/-- Claim C1 counterexample: on the valid JSON input `{"1":{"a":1}}` the raw
parse would succeed, yet the first parse attempt of `cleanAndParseJSON`
operates on text already transformed by the index-key stripping repair
(the normalized text differs from the first-attempt text), which corrupts
this input into `{{"a":1}}` and makes the whole pipeline fail. -/
theorem c1_counterexample :
    jsonParse "\x7b\"1\":\x7b\"a\":1\x7d\x7d" =
      some (Json.obj [("1", Json.obj [("a", Json.num "1")])]) ∧
    normalizedText "\x7b\"1\":\x7b\"a\":1\x7d\x7d" = "\x7b\"1\":\x7b\"a\":1\x7d\x7d" ∧
    firstAttemptText "\x7b\"1\":\x7b\"a\":1\x7d\x7d" = "\x7b\x7b\"a\":1\x7d\x7d" ∧
    firstAttemptText "\x7b\"1\":\x7b\"a\":1\x7d\x7d" ≠
      normalizedText "\x7b\"1\":\x7b\"a\":1\x7d\x7d" ∧
    cleanAndParseJSON "\x7b\"1\":\x7b\"a\":1\x7d\x7d" =
      .error (.malformedJSON "\x7b\"1\":\x7b\"a\":1\x7d\x7d" "\x7b\x7b\"a\":1\x7d\x7d") := by
  refine ⟨rfl, rfl, rfl, ?_, rfl⟩
  decide

/-- Claim C1 (amended): only the trailing-comma removal is deferred to a
second attempt after the first structural parse fails; the index-key
stripping is applied unconditionally to the normalized text before the first
parse attempt. The first attempt parses `stripIndexKeys (normalizedText t)`,
and the second parses its comma-stripped trim. -/
theorem c1_amended (text : String) (v : Json) (hne : ¬ text = "") :
    (jsonParse (firstAttemptText text) = some v → cleanAndParseJSON text = .ok v) ∧
    (jsonParse (firstAttemptText text) = none →
      jsonParse (secondAttemptText text) = some v → cleanAndParseJSON text = .ok v) ∧
    firstAttemptText text = stripIndexKeys (normalizedText text) ∧
    secondAttemptText text = jsTrim (stripTrailingCommas (firstAttemptText text)) := by
  refine ⟨?_, ?_, rfl, rfl⟩
  · intro h1
    have h1' : jsonParseChars
        (idxKeyStrip (envelopeSlice (jsTrimChars (fenceStrip text.toList)))) = some v := h1
    simp only [cleanAndParseJSON, if_neg hne, h1']
  · intro h1 h2
    have h1' : jsonParseChars
        (idxKeyStrip (envelopeSlice (jsTrimChars (fenceStrip text.toList)))) = none := h1
    have h2' : jsonParseChars (jsTrimChars (commaStrip
        (idxKeyStrip (envelopeSlice (jsTrimChars (fenceStrip text.toList)))))) = some v := h2
    simp only [cleanAndParseJSON, if_neg hne, h1', h2']

/-- Witness for C1 (amended) at `{"a":1}`: the first attempt succeeds and the
pipeline returns its value. -/
theorem c1_amended_witness :
    cleanAndParseJSON "\x7b\"a\":1\x7d" = .ok (Json.obj [("a", Json.num "1")]) :=
  (c1_amended "\x7b\"a\":1\x7d" (Json.obj [("a", Json.num "1")]) (by decide)).1 rfl

/-- Claim C2 counterexample: ingestion does not recover every valid JSON
value from a fenced, prose-surrounded reply. A scalar value (`5`) has no
bracket envelope and the surrounding prose defeats the parse; an object value
containing a quoted-integer key (`{"1":{"a":1}}`) is corrupted by the
index-key stripping applied before the first parse. Both runs end in
`MalformedJSON` instead of the embedded value. -/
theorem c2_counterexample :
    jsonParse "5" = some (Json.num "5") ∧
    cleanAndParseJSON "```json\nLook: 5 ok\n```" =
      .error (.malformedJSON "```json\nLook: 5 ok\n```" "Look: 5 ok") ∧
    jsonParse "\x7b\"1\":\x7b\"a\":1\x7d\x7d" =
      some (Json.obj [("1", Json.obj [("a", Json.num "1")])]) ∧
    cleanAndParseJSON "```json\nHere: \x7b\"1\":\x7b\"a\":1\x7d\x7d bye\n```" =
      .error (.malformedJSON "```json\nHere: \x7b\"1\":\x7b\"a\":1\x7d\x7d bye\n```"
        "\x7b\x7b\"a\":1\x7d\x7d") :=
  ⟨rfl, rfl, rfl, rfl⟩

/-- Claim C5: when the first parse attempt and the repaired second attempt
both fail on nonempty input, `cleanAndParseJSON` fails loudly with a
malformed-JSON failure carrying the original raw text and the final cleaned
text; in particular it returns no partial or default value. -/
theorem c5_malformed_failure (text : String) (hne : ¬ text = "")
    (h1 : jsonParse (firstAttemptText text) = none)
    (h2 : jsonParse (secondAttemptText text) = none) :
    cleanAndParseJSON text =
      .error (.malformedJSON text (firstAttemptText text)) := by
  have h1' : jsonParseChars
      (idxKeyStrip (envelopeSlice (jsTrimChars (fenceStrip text.toList)))) = none := h1
  have h2' : jsonParseChars (jsTrimChars (commaStrip
      (idxKeyStrip (envelopeSlice (jsTrimChars (fenceStrip text.toList)))))) = none := h2
  simp only [cleanAndParseJSON, if_neg hne, h1', h2']
  rfl

/-- Witness for C5 at the input `total garbage`. -/
theorem c5_malformed_failure_witness :
    cleanAndParseJSON "total garbage" =
      .error (.malformedJSON "total garbage" "total garbage") :=
  c5_malformed_failure "total garbage" (by decide) rfl rfl

/-- Claim C7: the soft call sites `defineWord`, `generateHint` and
`getVivaResponse` never propagate a failure: whether the retried call ends in
an error or the reply text fails to parse, each returns its fixed
human-readable fallback string. -/
theorem c7_soft_sites_never_fail (endpoint : Nat → Except String String) :
    ((∃ m, (withRetry endpoint 3 2000).result = Except.error m) →
      defineWord endpoint = .str "Definition unavailable." ∧
      generateHint endpoint = .str "Try reviewing the Story Mode for clues!" ∧
      getVivaResponse endpoint =
        .str "Oops! An error occurred. Check your network or quota.") ∧
    (∀ t, (withRetry endpoint 3 2000).result = Except.ok t →
      (∃ f, cleanAndParseJSON (if t = "" then "\x7b\x7d" else t) = .error f) →
      defineWord endpoint = .str "Definition unavailable." ∧
      generateHint endpoint = .str "Try reviewing the Story Mode for clues!" ∧
      getVivaResponse endpoint =
        .str "Oops! An error occurred. Check your network or quota.") := by
  constructor
  · rintro ⟨m, hm⟩
    refine ⟨?_, ?_, ?_⟩ <;>
      simp only [defineWord, generateHint, getVivaResponse, softCallSite, hm]
  · rintro t ht ⟨f, hf⟩
    refine ⟨?_, ?_, ?_⟩ <;>
      simp only [defineWord, generateHint, getVivaResponse, softCallSite, ht, hf]

/-- Witness for C7: a non-retryable endpoint error and an unparsable reply
both produce the fixed fallback strings. -/
theorem c7_soft_sites_never_fail_witness :
    defineWord (fun _ => .error "401") = .str "Definition unavailable." ∧
    generateHint (fun _ => .ok "not json") =
      .str "Try reviewing the Story Mode for clues!" :=
  ⟨((c7_soft_sites_never_fail (fun _ => .error "401")).1 ⟨"401", rfl⟩).1,
   ((c7_soft_sites_never_fail (fun _ => .ok "not json")).2 "not json" rfl ⟨_, rfl⟩).2.1⟩

/-- Claim C9: even when the reply parses, `defineWord` and `generateHint`
return their fixed fallback string whenever the parsed value lacks the
expected key or that key's value is falsy (empty string, zero, `false`,
`null`); the fallback is not reserved to the error path. -/
theorem c9_falsy_projection_fallback (endpoint : Nat → Except String String)
    (t : String) (v : Json)
    (h1 : (withRetry endpoint 3 2000).result = Except.ok t)
    (h2 : cleanAndParseJSON (if t = "" then "\x7b\x7d" else t) = .ok v) :
    ((getField v "definition" = none ∨
        ∃ f, getField v "definition" = some f ∧ jsTruthy f = false) →
      defineWord endpoint = .str "Definition unavailable.") ∧
    ((getField v "hint" = none ∨
        ∃ f, getField v "hint" = some f ∧ jsTruthy f = false) →
      generateHint endpoint = .str "Try reviewing the Story Mode for clues!") := by
  constructor
  · rintro (hnone | ⟨f, hf, hfalse⟩)
    · simp only [defineWord, softCallSite, h1, h2, hnone]
    · simp only [defineWord, softCallSite, h1, h2, hf, hfalse]
      rfl
  · rintro (hnone | ⟨f, hf, hfalse⟩)
    · simp only [generateHint, softCallSite, h1, h2, hnone]
    · simp only [generateHint, softCallSite, h1, h2, hf, hfalse]
      rfl

/-- Witness for C9: a reply whose `definition` is the empty string and whose
`hint` is the number `0` yields both fallbacks despite a successful parse. -/
theorem c9_falsy_projection_fallback_witness :
    defineWord (fun _ => .ok "\x7b\"definition\":\"\",\"hint\":0\x7d") =
      .str "Definition unavailable." ∧
    generateHint (fun _ => .ok "\x7b\"definition\":\"\",\"hint\":0\x7d") =
      .str "Try reviewing the Story Mode for clues!" := by
  have h := c9_falsy_projection_fallback
    (fun _ => .ok "\x7b\"definition\":\"\",\"hint\":0\x7d")
    "\x7b\"definition\":\"\",\"hint\":0\x7d"
    (Json.obj [("definition", Json.str ""), ("hint", Json.num "0")]) rfl rfl
  exact ⟨h.1 (Or.inr ⟨Json.str "", rfl, rfl⟩), h.2 (Or.inr ⟨Json.num "0", rfl, rfl⟩)⟩

/-- Claim C8 counterexample: on the spec's example input the index-key
stripping transform collapses `"1":{` to `{` inside each already-wrapped
element, producing `{"quiz":[{{"q":"x"}},{{"q":"y"}}]}` — text that does not
parse at all (and the whole pipeline then fails), not an array of bare inner
objects. -/
theorem c8_counterexample :
    stripIndexKeys
        "\x7b\"quiz\":[\x7b\"1\":\x7b\"q\":\"x\"\x7d\x7d,\x7b\"2\":\x7b\"q\":\"y\"\x7d\x7d]\x7d" =
      "\x7b\"quiz\":[\x7b\x7b\"q\":\"x\"\x7d\x7d,\x7b\x7b\"q\":\"y\"\x7d\x7d]\x7d" ∧
    jsonParse "\x7b\"quiz\":[\x7b\x7b\"q\":\"x\"\x7d\x7d,\x7b\x7b\"q\":\"y\"\x7d\x7d]\x7d" = none ∧
    cleanAndParseJSON
        "\x7b\"quiz\":[\x7b\"1\":\x7b\"q\":\"x\"\x7d\x7d,\x7b\"2\":\x7b\"q\":\"y\"\x7d\x7d]\x7d" =
      .error (.malformedJSON
        "\x7b\"quiz\":[\x7b\"1\":\x7b\"q\":\"x\"\x7d\x7d,\x7b\"2\":\x7b\"q\":\"y\"\x7d\x7d]\x7d"
        "\x7b\"quiz\":[\x7b\x7b\"q\":\"x\"\x7d\x7d,\x7b\x7b\"q\":\"y\"\x7d\x7d]\x7d") :=
  ⟨rfl, rfl, rfl⟩

/-- Claim C8 (amended): the index-key stripping transform unwraps quoted
integer keys that sit directly inside an array (the artifact of a model
emitting keyed elements), where it yields exactly the array of bare inner
objects; applied to the spec's example, whose elements are each wrapped in
their own object, it instead produces text that does not parse. -/
theorem c8_amended :
    stripIndexKeys "\x7b\"quiz\":[\"1\":\x7b\"q\":\"x\"\x7d,\"2\":\x7b\"q\":\"y\"\x7d]\x7d" =
      "\x7b\"quiz\":[\x7b\"q\":\"x\"\x7d,\x7b\"q\":\"y\"\x7d]\x7d" ∧
    jsonParse "\x7b\"quiz\":[\x7b\"q\":\"x\"\x7d,\x7b\"q\":\"y\"\x7d]\x7d" =
      some (Json.obj [("quiz", Json.arr
        [Json.obj [("q", Json.str "x")], Json.obj [("q", Json.str "y")]])]) :=
  ⟨rfl, rfl⟩

/-!
Helper lemmas for the round-trip claim C2: the first occurrence index
function, recovery of the envelope from bracket-free surroundings, trimming
around a whitespace-free-ended core, and the fence-stripping scan on a
fenced, backtick-free body.
-/

theorem charFirstIdx_append (p rest : List Char) (t : Char)
    (h : ∀ x ∈ p, ¬ x = t) :
    charFirstIdx (p ++ rest) t = (charFirstIdx rest t).map (· + p.length) := by
  induction p with
  | nil =>
    cases hr : charFirstIdx rest t <;> simp [hr]
  | cons c p ih =>
    have hc : ¬ c = t := h c (List.mem_cons_self c p)
    have ih2 := ih (fun x hx => h x (List.mem_cons_of_mem c hx))
    cases hr : charFirstIdx rest t with
    | none => simp [charFirstIdx, if_neg hc, ih2, hr]
    | some j =>
      simp [charFirstIdx, if_neg hc, ih2, hr]
      omega

theorem charFirstIdx_eq_none (l : List Char) (t : Char)
    (h : ∀ x ∈ l, ¬ x = t) : charFirstIdx l t = none := by
  induction l with
  | nil => rfl
  | cons c l ih =>
    have hc : ¬ c = t := h c (List.mem_cons_self c l)
    simp [charFirstIdx, if_neg hc, ih (fun x hx => h x (List.mem_cons_of_mem c hx))]

theorem charFirstIdx_of_head (l : List Char) (t : Char)
    (h : l.head? = some t) : charFirstIdx l t = some 0 := by
  cases l with
  | nil => simp at h
  | cons c l =>
    have : c = t := by simpa using h
    simp [charFirstIdx, this]

theorem charFirstIdx_head_ne_pos (l : List Char) (a t : Char) (j : Nat)
    (h : l.head? = some a) (hne : ¬ a = t)
    (hj : charFirstIdx l t = some j) : 1 ≤ j := by
  cases l with
  | nil => simp at h
  | cons c l =>
    have hc : c = a := by simpa using h
    subst hc
    simp only [charFirstIdx, if_neg hne] at hj
    cases hr : charFirstIdx l t with
    | none => rw [hr] at hj ; simp at hj
    | some i => rw [hr] at hj ; simp at hj ; omega

theorem two_le_length_of_head_getLast_ne (l : List Char) (a b : Char)
    (h1 : l.head? = some a) (h2 : l.getLast? = some b) (hne : ¬ a = b) :
    2 ≤ l.length := by
  match l with
  | [] => simp at h1
  | [x] =>
    have ha : x = a := by simpa using h1
    have hb : x = b := by simpa using h2
    exact absurd (ha ▸ hb) hne
  | x :: y :: l => simp

theorem head?_append_some (l₁ l₂ : List Char) (c : Char)
    (h : l₁.head? = some c) : (l₁ ++ l₂).head? = some c := by
  cases l₁ <;> simp_all

/-- Envelope recovery, object payload: when the surrounding text contains no
brace or bracket and the payload starts with `{` and ends with `}`, the
envelope-locating step returns exactly the payload. -/
theorem envelopeSlice_append_eq_brace (p q s : List Char)
    (hp : ∀ c ∈ p, c ≠ '{' ∧ c ≠ '}' ∧ c ≠ '[' ∧ c ≠ ']')
    (hq : ∀ c ∈ q, c ≠ '{' ∧ c ≠ '}' ∧ c ≠ '[' ∧ c ≠ ']')
    (hhead : s.head? = some '{') (hlast : s.getLast? = some '}') :
    envelopeSlice (p ++ s ++ q) = s := by
  rw [List.append_assoc]
  have hrev : (p ++ (s ++ q)).reverse = q.reverse ++ (s.reverse ++ p.reverse) := by
    simp [List.reverse_append, List.append_assoc]
  have hS2 : 2 ≤ s.length :=
    two_le_length_of_head_getLast_ne s _ _ hhead hlast (by decide)
  have hlen : (p ++ (s ++ q)).length = p.length + (s.length + q.length) := by simp
  have hsq_head : (s ++ q).head? = some '{' := head?_append_some _ _ _ hhead
  have hsp_head : (s.reverse ++ p.reverse).head? = some '}' :=
    head?_append_some _ _ _ (by rw [List.head?_reverse] ; exact hlast)
  have eFB : jsIndexOf (p ++ (s ++ q)) '{' = (p.length : Int) := by
    simp [jsIndexOf,
      charFirstIdx_append p _ _ (fun x hx => (hp x hx).1),
      charFirstIdx_of_head _ _ hsq_head]
  have eLB : jsLastIndexOf (p ++ (s ++ q)) '}' =
      (((p ++ (s ++ q)).length - 1 - q.length : Nat) : Int) := by
    unfold jsLastIndexOf
    rw [hrev,
      charFirstIdx_append q.reverse _ _
        (fun x hx => (hq x (List.mem_reverse.mp hx)).2.1),
      charFirstIdx_of_head _ _ hsp_head]
    simp
  have hOr1 : jsIndexOf (p ++ (s ++ q)) '[' = -1 ∨
      (p.length : Int) < jsIndexOf (p ++ (s ++ q)) '[' := by
    have e : charFirstIdx (p ++ (s ++ q)) '[' =
        (charFirstIdx (s ++ q) '[').map (· + p.length) :=
      charFirstIdx_append p _ _ (fun x hx => (hp x hx).2.2.1)
    cases hcase : charFirstIdx (s ++ q) '[' with
    | none =>
      left
      unfold jsIndexOf
      rw [e, hcase]
      rfl
    | some j =>
      right
      have hj : 1 ≤ j := charFirstIdx_head_ne_pos _ _ _ _ hsq_head (by decide) hcase
      unfold jsIndexOf
      rw [e, hcase]
      simp only [Option.map_some']
      omega
  have hOr2 : jsLastIndexOf (p ++ (s ++ q)) ']' = -1 ∨
      (((p ++ (s ++ q)).length - 1 - q.length : Nat) : Int) >
        jsLastIndexOf (p ++ (s ++ q)) ']' := by
    have e : charFirstIdx (p ++ (s ++ q)).reverse ']' =
        (charFirstIdx (s.reverse ++ p.reverse) ']').map (· + q.reverse.length) := by
      rw [hrev]
      exact charFirstIdx_append q.reverse _ _
        (fun x hx => (hq x (List.mem_reverse.mp hx)).2.2.2)
    cases hcase : charFirstIdx (s.reverse ++ p.reverse) ']' with
    | none =>
      left
      unfold jsLastIndexOf
      rw [e, hcase]
      rfl
    | some i =>
      right
      have hi : 1 ≤ i := charFirstIdx_head_ne_pos _ _ _ _ hsp_head (by decide) hcase
      unfold jsLastIndexOf
      rw [e, hcase]
      simp only [Option.map_some', List.length_reverse]
      omega
  simp only [envelopeSlice]
  rw [eFB, eLB]
  rw [if_pos (⟨by omega, hOr1⟩ :
    (p.length : Int) ≠ -1 ∧ (jsIndexOf (p ++ (s ++ q)) '[' = -1 ∨
      (p.length : Int) < jsIndexOf (p ++ (s ++ q)) '['))]
  rw [if_pos (⟨by omega, hOr2⟩ :
    (((p ++ (s ++ q)).length - 1 - q.length : Nat) : Int) ≠ -1 ∧
      (jsLastIndexOf (p ++ (s ++ q)) ']' = -1 ∨
        (((p ++ (s ++ q)).length - 1 - q.length : Nat) : Int) >
          jsLastIndexOf (p ++ (s ++ q)) ']'))]
  rw [if_pos (⟨by omega, by omega, by omega⟩ :
    (p.length : Int) ≠ -1 ∧
      (((p ++ (s ++ q)).length - 1 - q.length : Nat) : Int) ≠ -1 ∧
      (((p ++ (s ++ q)).length - 1 - q.length : Nat) : Int) > (p.length : Int))]
  rw [Int.toNat_ofNat, Int.toNat_ofNat]
  have hcount : (p ++ (s ++ q)).length - 1 - q.length + 1 - p.length = s.length := by
    omega
  rw [hcount, List.drop_left, List.take_left]

/-- Envelope recovery, array payload: as `envelopeSlice_append_eq_brace`,
for a payload starting with `[` and ending with `]`. -/
theorem envelopeSlice_append_eq_bracket (p q s : List Char)
    (hp : ∀ c ∈ p, c ≠ '{' ∧ c ≠ '}' ∧ c ≠ '[' ∧ c ≠ ']')
    (hq : ∀ c ∈ q, c ≠ '{' ∧ c ≠ '}' ∧ c ≠ '[' ∧ c ≠ ']')
    (hhead : s.head? = some '[') (hlast : s.getLast? = some ']') :
    envelopeSlice (p ++ s ++ q) = s := by
  rw [List.append_assoc]
  have hrev : (p ++ (s ++ q)).reverse = q.reverse ++ (s.reverse ++ p.reverse) := by
    simp [List.reverse_append, List.append_assoc]
  have hS2 : 2 ≤ s.length :=
    two_le_length_of_head_getLast_ne s _ _ hhead hlast (by decide)
  have hlen : (p ++ (s ++ q)).length = p.length + (s.length + q.length) := by simp
  have hsq_head : (s ++ q).head? = some '[' := head?_append_some _ _ _ hhead
  have hsp_head : (s.reverse ++ p.reverse).head? = some ']' :=
    head?_append_some _ _ _ (by rw [List.head?_reverse] ; exact hlast)
  have eFK : jsIndexOf (p ++ (s ++ q)) '[' = (p.length : Int) := by
    simp [jsIndexOf,
      charFirstIdx_append p _ _ (fun x hx => (hp x hx).2.2.1),
      charFirstIdx_of_head _ _ hsq_head]
  have eLK : jsLastIndexOf (p ++ (s ++ q)) ']' =
      (((p ++ (s ++ q)).length - 1 - q.length : Nat) : Int) := by
    unfold jsLastIndexOf
    rw [hrev,
      charFirstIdx_append q.reverse _ _
        (fun x hx => (hq x (List.mem_reverse.mp hx)).2.2.2),
      charFirstIdx_of_head _ _ hsp_head]
    simp
  have hnC1 : ¬ (jsIndexOf (p ++ (s ++ q)) '{' ≠ -1 ∧
      (jsIndexOf (p ++ (s ++ q)) '[' = -1 ∨
        jsIndexOf (p ++ (s ++ q)) '{' < jsIndexOf (p ++ (s ++ q)) '[')) := by
    have e : charFirstIdx (p ++ (s ++ q)) '{' =
        (charFirstIdx (s ++ q) '{').map (· + p.length) :=
      charFirstIdx_append p _ _ (fun x hx => (hp x hx).1)
    cases hcase : charFirstIdx (s ++ q) '{' with
    | none =>
      rintro ⟨h1, _⟩
      apply h1
      unfold jsIndexOf
      rw [e, hcase]
      rfl
    | some j =>
      have hj : 1 ≤ j := charFirstIdx_head_ne_pos _ _ _ _ hsq_head (by decide) hcase
      rintro ⟨_, h2 | h2⟩
      · rw [eFK] at h2 ; omega
      · rw [eFK] at h2
        unfold jsIndexOf at h2
        rw [e, hcase] at h2
        simp only [Option.map_some'] at h2
        omega
  have hnC2 : ¬ (jsLastIndexOf (p ++ (s ++ q)) '}' ≠ -1 ∧
      (jsLastIndexOf (p ++ (s ++ q)) ']' = -1 ∨
        jsLastIndexOf (p ++ (s ++ q)) '}' > jsLastIndexOf (p ++ (s ++ q)) ']')) := by
    have e : charFirstIdx (p ++ (s ++ q)).reverse '}' =
        (charFirstIdx (s.reverse ++ p.reverse) '}').map (· + q.reverse.length) := by
      rw [hrev]
      exact charFirstIdx_append q.reverse _ _
        (fun x hx => (hq x (List.mem_reverse.mp hx)).2.1)
    cases hcase : charFirstIdx (s.reverse ++ p.reverse) '}' with
    | none =>
      rintro ⟨h1, _⟩
      apply h1
      unfold jsLastIndexOf
      rw [e, hcase]
      rfl
    | some i =>
      have hi : 1 ≤ i := charFirstIdx_head_ne_pos _ _ _ _ hsp_head (by decide) hcase
      rintro ⟨_, h2 | h2⟩
      · rw [eLK] at h2 ; omega
      · rw [eLK] at h2
        unfold jsLastIndexOf at h2
        rw [e, hcase] at h2
        simp only [Option.map_some', List.length_reverse] at h2
        omega
  simp only [envelopeSlice]
  rw [if_neg hnC1, if_neg hnC2, eFK, eLK]
  rw [if_pos (by omega : (p.length : Int) ≠ -1)]
  rw [if_pos (by omega :
    (((p ++ (s ++ q)).length - 1 - q.length : Nat) : Int) ≠ -1)]
  rw [if_pos (⟨by omega, by omega, by omega⟩ :
    (p.length : Int) ≠ -1 ∧
      (((p ++ (s ++ q)).length - 1 - q.length : Nat) : Int) ≠ -1 ∧
      (((p ++ (s ++ q)).length - 1 - q.length : Nat) : Int) > (p.length : Int))]
  rw [Int.toNat_ofNat, Int.toNat_ofNat]
  have hcount : (p ++ (s ++ q)).length - 1 - q.length + 1 - p.length = s.length := by
    omega
  rw [hcount, List.drop_left, List.take_left]

/-- Envelope recovery: when the surrounding text contains no brace or
bracket and the payload starts and ends with a matching brace or bracket
pair, the envelope-locating step returns exactly the payload. -/
theorem envelopeSlice_append_eq (p q s : List Char)
    (hp : ∀ c ∈ p, c ≠ '{' ∧ c ≠ '}' ∧ c ≠ '[' ∧ c ≠ ']')
    (hq : ∀ c ∈ q, c ≠ '{' ∧ c ≠ '}' ∧ c ≠ '[' ∧ c ≠ ']')
    (hshape : (s.head? = some '{' ∧ s.getLast? = some '}') ∨
              (s.head? = some '[' ∧ s.getLast? = some ']')) :
    envelopeSlice (p ++ s ++ q) = s := by
  rcases hshape with ⟨hhead, hlast⟩ | ⟨hhead, hlast⟩
  · exact envelopeSlice_append_eq_brace p q s hp hq hhead hlast
  · exact envelopeSlice_append_eq_bracket p q s hp hq hhead hlast

theorem ws_ne_tick (c : Char) (h : isJsWs c = true) : ¬ c = '\x60' := by
  intro e
  subst e
  exact absurd h (by decide)

theorem head?_dropWhile_not (p : Char → Bool) (l : List Char) (c : Char)
    (h : (l.dropWhile p).head? = some c) : p c = false := by
  induction l with
  | nil => simp at h
  | cons a l ih =>
    by_cases hp : p a
    · rw [List.dropWhile_cons_of_pos hp] at h
      exact ih h
    · rw [List.dropWhile_cons_of_neg hp] at h
      have : a = c := by simpa using h
      subst this
      simpa using hp

theorem dropWhile_append_of_head (a rest : List Char)
    (h : ∀ c, rest.head? = some c → isJsWs c = false) :
    (a ++ rest).dropWhile isJsWs = a.dropWhile isJsWs ++ rest := by
  induction a with
  | nil =>
    cases rest with
    | nil => simp
    | cons c r => simp [List.dropWhile_cons, h c rfl]
  | cons x a ih =>
    by_cases hx : isJsWs x
    · simp [List.dropWhile_cons, hx, ih]
    · simp [List.dropWhile_cons, hx]

/-- The trimming stage around a payload with non-whitespace endpoints keeps
the payload intact and only trims the surrounding material. -/
theorem jsTrimChars_decomp (a s b : List Char) (hs : s ≠ [])
    (hhead : ∀ c, s.head? = some c → isJsWs c = false)
    (hlast : ∀ c, s.getLast? = some c → isJsWs c = false) :
    jsTrimChars (a ++ (s ++ b)) =
      a.dropWhile isJsWs ++ (s ++ (b.reverse.dropWhile isJsWs).reverse) := by
  unfold jsTrimChars
  have h1 : (a ++ (s ++ b)).dropWhile isJsWs = a.dropWhile isJsWs ++ (s ++ b) := by
    apply dropWhile_append_of_head
    intro c hc
    cases s with
    | nil => exact absurd rfl hs
    | cons x s' => exact hhead c (by simpa using hc)
  rw [h1]
  have hrev : (a.dropWhile isJsWs ++ (s ++ b)).reverse =
      b.reverse ++ (s.reverse ++ (a.dropWhile isJsWs).reverse) := by
    simp [List.reverse_append, List.append_assoc]
  rw [hrev]
  have h2 : (b.reverse ++ (s.reverse ++ (a.dropWhile isJsWs).reverse)).dropWhile isJsWs =
      b.reverse.dropWhile isJsWs ++ (s.reverse ++ (a.dropWhile isJsWs).reverse) := by
    apply dropWhile_append_of_head
    intro c hc
    have hsr : s.reverse ≠ [] := by simpa using hs
    cases hsrev : s.reverse with
    | nil => exact absurd hsrev hsr
    | cons x s' =>
      apply hlast
      rw [← List.head?_reverse, hsrev]
      rw [hsrev] at hc
      simpa using hc
  rw [h2]
  simp [List.reverse_append, List.reverse_reverse, List.append_assoc]

theorem fenceScan_nil (fuel : Nat) : fenceScan fuel [] = [] := by
  cases fuel <;> rfl

theorem wsRunLen_append_all (a b : List Char)
    (ha : ∀ c ∈ a, isJsWs c = true)
    (hb : ∀ c, b.head? = some c → isJsWs c = false) :
    wsRunLen (a ++ b) = a.length := by
  induction a with
  | nil =>
    cases b with
    | nil => rfl
    | cons c r => simp [wsRunLen, hb c rfl]
  | cons x a ih =>
    have hx := ha x (List.mem_cons_self x a)
    simp [wsRunLen, hx, ih (fun c hc => ha c (List.mem_cons_of_mem x hc))]

/-- A greedy whitespace run starting inside a chunk that contains a
non-whitespace character stops at a character of that chunk. -/
theorem wsRun_drop_cons (u w : List Char)
    (hne : ∃ x ∈ u, isJsWs x = false)
    (hnb : ∀ x ∈ u, ¬ x = '\x60') :
    ∃ d r2, (u ++ w).drop (wsRunLen (u ++ w)) = d :: r2 ∧ ¬ d = '\x60' := by
  induction u with
  | nil =>
    obtain ⟨x, hx, _⟩ := hne
    simp at hx
  | cons c u ih =>
    by_cases hc : isJsWs c
    · have hne' : ∃ x ∈ u, isJsWs x = false := by
        obtain ⟨x, hx, hxw⟩ := hne
        rcases List.mem_cons.mp hx with rfl | hx2
        · exact absurd hc (by simp [hxw])
        · exact ⟨x, hx2, hxw⟩
      obtain ⟨d, r2, hd, hdnb⟩ := ih hne' (fun x hx => hnb x (List.mem_cons_of_mem c hx))
      refine ⟨d, r2, ?_, hdnb⟩
      simpa [wsRunLen, hc] using hd
    · exact ⟨c, u ++ w, by simp [wsRunLen, hc], hnb c (List.mem_cons_self c u)⟩

theorem fenceJson_no_match (c : Char) (l : List Char) (h : ¬ c = '\x60') :
    ¬ (fenceJsonChars.isPrefixOf (c :: l) = true) := by
  simp only [fenceJsonChars, List.isPrefixOf, Bool.and_eq_true, beq_iff_eq]
  rintro ⟨e, -⟩
  exact h e.symm

theorem ticks_no_match (c : Char) (l : List Char) (h : ¬ c = '\x60') :
    ¬ (ticksChars.isPrefixOf (c :: l) = true) := by
  simp only [ticksChars, List.isPrefixOf, Bool.and_eq_true, beq_iff_eq]
  rintro ⟨e, -⟩
  exact h e.symm

theorem isPrefixOf_append_self (a b : List Char) : a.isPrefixOf (a ++ b) = true :=
  List.isPrefixOf_iff_prefix.mpr (List.prefix_append a b)

/-- Core of the fence-stripping scan: on a backtick-free body followed by a
closing fence, the scan copies the body up to its trailing whitespace, and
the trailing whitespace run together with the closing fence is removed. -/
theorem fenceScan_core_eq (core : List Char) :
    ∀ (tw : List Char) (fuel : Nat),
      (core ++ tw).length + 3 ≤ fuel →
      (∀ c ∈ core, ¬ c = '\x60') →
      (∀ c ∈ tw, isJsWs c = true) →
      (∀ c, core.getLast? = some c → isJsWs c = false) →
      fenceScan fuel (core ++ (tw ++ ticksChars)) = core := by
  induction core with
  | nil =>
    intro tw fuel hfuel _ htw _
    obtain ⟨f, rfl⟩ : ∃ f, fuel = f + 1 := ⟨fuel - 1, by omega⟩
    cases tw with
    | nil =>
      show fenceScan (f + 1) ('\x60' :: '\x60' :: '\x60' :: []) = []
      simp only [fenceScan]
      rw [if_neg (by decide), if_pos (by decide)]
      exact fenceScan_nil f
    | cons w tw' =>
      have hw : isJsWs w = true := htw w (List.mem_cons_self _ _)
      have hwnb : ¬ w = '\x60' := ws_ne_tick w hw
      show fenceScan (f + 1) (w :: (tw' ++ ticksChars)) = []
      simp only [fenceScan]
      rw [if_neg (fenceJson_no_match w _ hwnb)]
      have hrun : wsRunLen (w :: (tw' ++ ticksChars)) = tw'.length + 1 := by
        have h2 : wsRunLen (tw' ++ ticksChars) = tw'.length :=
          wsRunLen_append_all tw' ticksChars
            (fun c hc => htw c (List.mem_cons_of_mem w hc))
            (fun c hc => by
              have h60 : '\x60' = c := by simpa [ticksChars] using hc
              rw [← h60]
              decide)
        simp [wsRunLen, hw, h2]
      have hdrop : (w :: (tw' ++ ticksChars)).drop
          (wsRunLen (w :: (tw' ++ ticksChars))) = ticksChars := by
        rw [hrun]
        simp [List.drop_left]
      rw [hdrop]
      rw [if_pos (by decide : ticksChars.isPrefixOf ticksChars = true)]
      exact fenceScan_nil f
  | cons c core' ih =>
    intro tw fuel hfuel hcore htw hlast
    obtain ⟨f, rfl⟩ : ∃ f, fuel = f + 1 := ⟨fuel - 1, by omega⟩
    have hcnb : ¬ c = '\x60' := hcore c (List.mem_cons_self _ _)
    show fenceScan (f + 1) (c :: (core' ++ (tw ++ ticksChars))) = c :: core'
    simp only [fenceScan]
    rw [if_neg (fenceJson_no_match c _ hcnb)]
    have hex : ∃ x ∈ c :: core', isJsWs x = false := by
      cases hgl : (c :: core').getLast? with
      | none => simp at hgl
      | some d => exact ⟨d, List.mem_of_getLast?_eq_some hgl, hlast d hgl⟩
    obtain ⟨d, r2, hd, hdnb⟩ :=
      wsRun_drop_cons (c :: core') (tw ++ ticksChars) hex hcore
    rw [List.cons_append] at hd
    rw [hd]
    rw [if_neg (ticks_no_match d r2 hdnb)]
    have hlast' : ∀ x, core'.getLast? = some x → isJsWs x = false := by
      intro x hx
      cases core' with
      | nil => simp at hx
      | cons y core'' =>
        exact hlast x (by rw [List.getLast?_cons_cons] ; exact hx)
    have hfuel' : (core' ++ tw).length + 3 ≤ f := by
      simp only [List.length_append, List.length_cons] at hfuel ⊢
      omega
    rw [ih tw f hfuel' (fun x hx => hcore x (List.mem_cons_of_mem c hx)) htw hlast']

/-- Fence stripping on a fenced, backtick-free body: the leading
`` ```json `` marker plus adjacent whitespace and the trailing whitespace
plus `` ``` `` marker are removed, which is exactly a trim of the body. -/
theorem fenceStrip_wrapped (mid : List Char) (h : ∀ c ∈ mid, ¬ c = '\x60') :
    fenceStrip (fenceJsonChars ++ (mid ++ ticksChars)) = jsTrimChars mid := by
  unfold fenceStrip
  show fenceScan ((fenceJsonChars ++ (mid ++ ticksChars)).length + 1)
      ('\x60' :: '\x60' :: '\x60' :: 'j' :: 's' :: 'o' :: 'n' :: (mid ++ ticksChars)) =
    jsTrimChars mid
  simp only [fenceScan]
  rw [if_pos (show fenceJsonChars.isPrefixOf
    ('\x60' :: '\x60' :: '\x60' :: 'j' :: 's' :: 'o' :: 'n' :: (mid ++ ticksChars)) = true
    from isPrefixOf_append_self fenceJsonChars (mid ++ ticksChars))]
  have hd7 : ('\x60' :: '\x60' :: '\x60' :: 'j' :: 's' :: 'o' :: 'n' ::
      (mid ++ ticksChars)).drop 7 = mid ++ ticksChars := rfl
  rw [hd7]
  have hmid : mid ++ ticksChars =
      mid.takeWhile isJsWs ++ (mid.dropWhile isJsWs ++ ticksChars) := by
    rw [← List.append_assoc, List.takeWhile_append_dropWhile]
  rw [hmid]
  have hrun : wsRunLen
      (mid.takeWhile isJsWs ++ (mid.dropWhile isJsWs ++ ticksChars)) =
      (mid.takeWhile isJsWs).length := by
    apply wsRunLen_append_all
    · intro x hx
      exact List.mem_takeWhile_imp hx
    · intro x hx
      cases hdw : mid.dropWhile isJsWs with
      | nil =>
        rw [hdw] at hx
        have h60 : '\x60' = x := by simpa [ticksChars] using hx
        rw [← h60]
        decide
      | cons y r =>
        rw [hdw] at hx
        have hxy : y = x := by simpa using hx
        exact head?_dropWhile_not isJsWs mid x (by rw [hdw, hxy] ; rfl)
  rw [hrun, List.drop_left]
  obtain ⟨core, tw, hco, hcoreeq, htwws, hlastc⟩ :
      ∃ core tw, core ++ tw = mid.dropWhile isJsWs ∧
        core = ((mid.dropWhile isJsWs).reverse.dropWhile isJsWs).reverse ∧
        (∀ x ∈ tw, isJsWs x = true) ∧
        (∀ x, core.getLast? = some x → isJsWs x = false) := by
    refine ⟨((mid.dropWhile isJsWs).reverse.dropWhile isJsWs).reverse,
           ((mid.dropWhile isJsWs).reverse.takeWhile isJsWs).reverse, ?_, rfl, ?_, ?_⟩
    · rw [← List.reverse_append, List.takeWhile_append_dropWhile, List.reverse_reverse]
    · intro x hx
      exact List.mem_takeWhile_imp (List.mem_reverse.mp hx)
    · intro x hx
      rw [List.getLast?_reverse] at hx
      exact head?_dropWhile_not isJsWs _ x hx
  rw [← hco, List.append_assoc]
  rw [fenceScan_core_eq core tw _
    (by
      have hsub : (core ++ tw).length ≤ mid.length := by
        rw [hco]
        exact Nat.le_trans ( List.Sublist.length_le (List.dropWhile_sublist isJsWs))
          (Nat.le_refl _)
      simp only [List.length_append, List.length_cons, fenceJsonChars, ticksChars]
      simp only [List.length_append] at hsub
      omega)
    (fun x hx => by
      have h1 : x ∈ (mid.dropWhile isJsWs).reverse.dropWhile isJsWs := by
        rw [hcoreeq] at hx
        exact List.mem_reverse.mp hx
      have h2 : x ∈ (mid.dropWhile isJsWs).reverse :=
        (List.dropWhile_sublist isJsWs).subset h1
      have h3 : x ∈ mid.dropWhile isJsWs := List.mem_reverse.mp h2
      exact h x ((List.dropWhile_sublist isJsWs).subset h3))
    htwws hlastc]
  rw [hcoreeq]
  rfl
theorem envelopeSlice_infix (l : List Char) : envelopeSlice l <:+: l := by
  simp only [envelopeSlice]
  repeat' split
  all_goals
    first
      | exact (( List.take_prefix _ _).isInfix).trans (( List.drop_suffix _ _).isInfix)
      | exact List.infix_refl l

/-- Claim C2 (amended): ingestion recovers a fenced, prose-surrounded JSON
payload when the failure modes exhibited by the counterexample are excluded:
the payload is an object or array (its serialization starts and ends with the
matching brace or bracket pair), the index-key-stripping repair leaves the
payload unchanged, no backtick occurs in payload or prose, and the prose
contains no brace or bracket. The recovered value is exactly the payload's
parse. -/
theorem c2_amended (pre s post : String) (v : Json)
    (hpre : ∀ c ∈ pre.toList, ¬ c = '\x60' ∧ c ≠ '{' ∧ c ≠ '}' ∧ c ≠ '[' ∧ c ≠ ']')
    (hpost : ∀ c ∈ post.toList, ¬ c = '\x60' ∧ c ≠ '{' ∧ c ≠ '}' ∧ c ≠ '[' ∧ c ≠ ']')
    (hs : ∀ c ∈ s.toList, ¬ c = '\x60')
    (hshape : (s.toList.head? = some '{' ∧ s.toList.getLast? = some '}') ∨
              (s.toList.head? = some '[' ∧ s.toList.getLast? = some ']'))
    (hidx : stripIndexKeys s = s)
    (hparse : jsonParse s = some v) :
    cleanAndParseJSON ("```json\n" ++ pre ++ s ++ post ++ "\n```") = .ok v := by
  have hTlist : ("```json\n" ++ pre ++ s ++ post ++ "\n```").toList =
      fenceJsonChars ++
        (('\n' :: (pre.toList ++ (s.toList ++ (post.toList ++ ['\n'])))) ++ ticksChars) := by
    simp only [String.toList, String.data_append]
    simp [fenceJsonChars, ticksChars, List.append_assoc]
  have hne : ¬ ("```json\n" ++ pre ++ s ++ post ++ "\n```") = "" := by
    intro hq
    have h0 := congrArg String.toList hq
    rw [hTlist] at h0
    simp [fenceJsonChars] at h0
  have hmidnb : ∀ c ∈ '\n' :: (pre.toList ++ (s.toList ++ (post.toList ++ ['\n']))),
      ¬ c = '\x60' := by
    intro c hc
    rcases List.mem_cons.mp hc with rfl | hc2
    · decide
    · rcases List.mem_append.mp hc2 with h1 | h23
      · exact (hpre c h1).1
      · rcases List.mem_append.mp h23 with h2 | h34
        · exact hs c h2
        · rcases List.mem_append.mp h34 with h3 | h4
          · exact (hpost c h3).1
          · have h5 : c = '\n' := by simpa using h4
            rw [h5]
            decide
  have hsne : s.toList ≠ [] := by
    rcases hshape with ⟨h1, _⟩ | ⟨h1, _⟩ <;>
      (intro hq ; rw [hq] at h1 ; simp at h1)
  have hheadns : ∀ c, s.toList.head? = some c → isJsWs c = false := by
    rcases hshape with ⟨h1, _⟩ | ⟨h1, _⟩ <;>
      (intro c hc ; rw [h1] at hc ;
       have h2 := Option.some.inj hc ; rw [← h2] ; decide)
  have hlastns : ∀ c, s.toList.getLast? = some c → isJsWs c = false := by
    rcases hshape with ⟨_, h2⟩ | ⟨_, h2⟩ <;>
      (intro c hc ; rw [h2] at hc ;
       have h3 := Option.some.inj hc ; rw [← h3] ; decide)
  have hfence := fenceStrip_wrapped
    ('\n' :: (pre.toList ++ (s.toList ++ (post.toList ++ ['\n'])))) hmidnb
  have hconsapp : ('\n' :: (pre.toList ++ (s.toList ++ (post.toList ++ ['\n'])))) =
      ('\n' :: pre.toList) ++ (s.toList ++ (post.toList ++ ['\n'])) := rfl
  have htrim1 := jsTrimChars_decomp ('\n' :: pre.toList) s.toList
    (post.toList ++ ['\n']) hsne hheadns hlastns
  have htrim2 := jsTrimChars_decomp
    (('\n' :: pre.toList).dropWhile isJsWs) s.toList
    (((post.toList ++ ['\n']).reverse.dropWhile isJsWs).reverse) hsne hheadns hlastns
  have hp3 : ∀ c ∈ (('\n' :: pre.toList).dropWhile isJsWs).dropWhile isJsWs,
      c ≠ '{' ∧ c ≠ '}' ∧ c ≠ '[' ∧ c ≠ ']' := by
    intro c hc
    have h1 := (List.dropWhile_sublist isJsWs).subset hc
    have h2 := (List.dropWhile_sublist isJsWs).subset h1
    rcases List.mem_cons.mp h2 with rfl | h3
    · exact ⟨by decide, by decide, by decide, by decide⟩
    · exact (hpre c h3).2
  have hq3 : ∀ c ∈
      (((((post.toList ++ ['\n']).reverse.dropWhile isJsWs).reverse).reverse.dropWhile
        isJsWs).reverse),
      c ≠ '{' ∧ c ≠ '}' ∧ c ≠ '[' ∧ c ≠ ']' := by
    intro c hc
    have h1 := List.mem_reverse.mp hc
    have h2 := (List.dropWhile_sublist isJsWs).subset h1
    rw [List.reverse_reverse] at h2
    have h3 := (List.dropWhile_sublist isJsWs).subset h2
    have h4 := List.mem_reverse.mp h3
    rcases List.mem_append.mp h4 with h5 | h6
    · exact (hpost c h5).2
    · have h7 : c = '\n' := by simpa using h6
      rw [h7]
      exact ⟨by decide, by decide, by decide, by decide⟩
  have hidx' : idxKeyStrip s.toList = s.toList := congrArg String.toList hidx
  have hparse' : jsonParseChars s.toList = some v := hparse
  unfold cleanAndParseJSON
  rw [if_neg hne]
  simp only []
  rw [hTlist, hfence, hconsapp, htrim1, htrim2]
  rw [← List.append_assoc]
  rw [envelopeSlice_append_eq _ _ _ hp3 hq3 hshape]
  rw [hidx', hparse']

/-- Witness for C2 (amended), which is also the spec's end-to-end scenario:
a fenced `{"a": 1}` surrounded by prose is ingested back to that object. -/
theorem c2_amended_witness :
    cleanAndParseJSON "```json\nHere you go: \x7b\"a\": 1\x7d Hope this helps!\n```" =
      .ok (Json.obj [("a", Json.num "1")]) := by
  have h := c2_amended "Here you go: " "\x7b\"a\": 1\x7d" " Hope this helps!"
    (Json.obj [("a", Json.num "1")]) (by decide) (by decide) (by decide)
    (Or.inl ⟨rfl, rfl⟩) rfl rfl
  exact h

/-- Claim C10: the text produced by the normalization stage (fence stripping,
trimming, envelope slicing, before any repair transform) is a contiguous
substring of the fence-stripped trimmed input — normalization never inserts,
duplicates, or reorders characters. -/
theorem c10_normalization_infix (text : String) :
    (normalizedText text).toList <:+: (jsTrim (stripFences text)).toList :=
  envelopeSlice_infix (jsTrimChars (fenceStrip text.toList))

end CogniVibe
